import Mathlib

/-!
Verification of `lmfdb/hilbert_modular_forms/hilbert_field.py`.

The Python module deserializes stored ideal strings of a Hilbert modular
form field record, assigns labels `"N.k"`, builds label/ideal lookup
dictionaries, and computes how field automorphisms permute ideal labels.

The Sage number-field layer (`F(...)`, `F.ideal(...)`, `idl.norm()`,
`idl.smallest_integer()`, `idl.pari_hnf().python()`) is an external
collaborator; it is abstracted by the `NumField` structure below.  All
string manipulation, labeling, dictionary and sorting logic is translated
directly from the Python source.
-/

namespace HilbertField

/-! ### Python dictionaries

A Python `dict` is modelled as an association list where `dictInsert`
prepends and `dictLookup` returns the most recently inserted binding,
matching Python's "later assignment overwrites" semantics. -/

def dictInsert {κ ν : Type} (d : List (κ × ν)) (k : κ) (v : ν) : List (κ × ν) :=
  (k, v) :: d

def dictLookup {κ ν : Type} [DecidableEq κ] (d : List (κ × ν)) (k : κ) : Option ν :=
  (d.find? fun p => decide (p.1 = k)).map Prod.snd

/-! ### The Sage collaborator -/

/-- Abstract interface to the Sage number field `F` used by the module:
`parseElt` is `F(string)` (which can raise, hence `Option`), `mkIdeal` is
`F.ideal(n, gen)`, and `norm`, `smallestInteger`, `pariHnf` are the ideal
methods `.norm()`, `.smallest_integer()` and `.pari_hnf().python()`.
`E` is the type of field elements, `I` of ideals, and `H` of the
canonical (HNF matrix) forms used as sort keys. -/
structure NumField (E I H : Type) where
  parseElt : String → Option E
  mkIdeal : Int → E → I
  norm : I → Int
  smallestInteger : I → Int
  pariHnf : I → H

variable {E I H : Type}

/-- `str2fieldelt(F, strg)`: parse a field element from a string. -/
def str2fieldelt (F : NumField E I H) (strg : String) : Option E :=
  F.parseElt strg

/-! Python string primitives used by `str2ideal`, modelled structurally on
the character list of the string: `removeChar` is `.replace(' ','')`,
`splitOnChar` is `.split(',')` (always at least one piece, like Python),
and `parseZZ` is `ZZ(string)` (optional sign, then a nonempty digit
string; anything else raises, i.e. `none`). -/

def removeChar (c : Char) : List Char → List Char
  | [] => []
  | x :: xs => if x = c then removeChar c xs else x :: removeChar c xs

def splitOnChar (c : Char) : List Char → List (List Char)
  | [] => [[]]
  | x :: xs =>
    match splitOnChar c xs with
    | [] => [[]]
    | h :: t => if x = c then [] :: h :: t else (x :: h) :: t

def digToNat (c : Char) : Option Nat :=
  if '0' ≤ c ∧ c ≤ '9' then some (c.toNat - 48) else none

def parseNatAux : List Char → Nat → Option Nat
  | [], acc => some acc
  | c :: cs, acc =>
    match digToNat c with
    | none => none
    | some d => parseNatAux cs (10 * acc + d)

def parseNat : List Char → Option Nat
  | [] => none
  | l => parseNatAux l 0

def parseZZ : List Char → Option Int
  | '-' :: rest => (parseNat rest).map fun n => -(n : Int)
  | '+' :: rest => (parseNat rest).map fun n => (n : Int)
  | l => (parseNat l).map fun n => (n : Int)

/-- `str2ideal(F, strg)`: split `strg[1:-1].replace(' ','')` on commas,
parse the first two tokens as integers (`ZZ(...)`), the third as a field
element, and build the ideal `F.ideal(n, gen)`.  Any parse failure (too
few tokens, non-integer token, bad element string) is a raised exception
in Python, modelled by `none`. -/
def str2ideal (F : NumField E I H) (strg : String) :
    Option (Int × Int × I × E) := do
  let idlstr := splitOnChar ',' (removeChar ' ' ((strg.data.drop 1).dropLast))
  let N ← parseZZ (← idlstr[0]?)
  let n ← parseZZ (← idlstr[1]?)
  let gen ← str2fieldelt F (String.mk (← idlstr[2]?))
  some (N, n, F.mkIdeal n gen, gen)

/-- The two ways decoding a stored ideal string can raise: a parse
exception from `ZZ(...)` / `F(...)` / indexing, or the failure of
`assert idl.norm() == N and idl.smallest_integer() == n`. -/
inductive DecodeErr : Type
  | parseError
  | assertError
deriving DecidableEq, Repr

/-- One element of the list built by `niceideals`: the Python code appends
the 3-element list `[hnf, idl, label]`. -/
structure IdealEntry (I H : Type) where
  hnf : H
  idl : I
  label : String
deriving DecidableEq, Repr

/-- The loop body of `niceideals`, with the running state `(ilabel, norm)`
made explicit (initialized to `(1, 0)` by `niceideals`). -/
def niceidealsAux (F : NumField E I H) (ilabel : Int) (norm : Int) :
    List String → Except DecodeErr (List (IdealEntry I H))
  | [] => .ok []
  | s :: rest =>
    match str2ideal F s with
    | none => .error .parseError
    | some (N, n, idl, _) =>
      if F.norm idl = N ∧ F.smallestInteger idl = n then
        let il := if N ≠ norm then 1 else ilabel
        let label := toString N ++ "." ++ toString il
        match niceidealsAux F (il + 1) N rest with
        | .ok l => .ok (⟨F.pariHnf idl, idl, label⟩ :: l)
        | .error e => .error e
      else .error .assertError

/-- `niceideals(F, ideals)`: decode every string, check the stored norm and
least positive integer against the constructed ideal, and label the
ideals `"N.k"` with `k` restarting at 1 whenever the norm changes. -/
def niceideals (F : NumField E I H) (ideals : List String) :
    Except DecodeErr (List (IdealEntry I H)) :=
  niceidealsAux F 1 0 ideals

/-! ### conjideals -/

/-- Python list comparison on the entries `[hnf, idl, label]` used by
`list.sort()`: lexicographic on the three components. -/
def entryLe [LinearOrder H] [LinearOrder I] (a b : IdealEntry I H) : Prop :=
  a.hnf < b.hnf ∨ (a.hnf = b.hnf ∧ (a.idl < b.idl ∨ (a.idl = b.idl ∧ a.label ≤ b.label)))

instance [LinearOrder H] [LinearOrder I] :
    DecidableRel (entryLe (I := I) (H := H)) := fun a b =>
  inferInstanceAs (Decidable
    (a.hnf < b.hnf ∨ (a.hnf = b.hnf ∧ (a.idl < b.idl ∨ (a.idl = b.idl ∧ a.label ≤ b.label)))))

/-- The effect of `I[0] = g(I[1]).pari_hnf().python()` on one entry. -/
def gimage (F : NumField E I H) (g : I → I) (e : IdealEntry I H) : IdealEntry I H :=
  ⟨F.pariHnf (g e.idl), e.idl, e.label⟩

/-- The reference list of `conjideals`: the input entries sorted once by
Python's list comparison (`ideals.sort()` after the shallow copy). -/
def refSorted [LinearOrder H] [LinearOrder I] (ideals : List (IdealEntry I H)) :
    List (IdealEntry I H) :=
  List.insertionSort entryLe ideals

/-- The per-automorphism list of `conjideals`: every entry's slot 0 is
overwritten with the canonical form of the image ideal, then the list is
sorted (`gideals.sort()`). -/
def imgSorted [LinearOrder H] [LinearOrder I] (F : NumField E I H) (g : I → I)
    (ideals : List (IdealEntry I H)) : List (IdealEntry I H) :=
  List.insertionSort entryLe ((refSorted ideals).map (gimage F g))

/-- `conjideals(ideals, auts)`.

Python aliasing made explicit: `copy` is shallow, so the inner
`[hnf, idl, label]` lists are shared between the caller's list, the local
sorted copy and each `gideals` copy.  `I[0] = g(I[1]).pari_hnf().python()`
therefore mutates the caller's entries in place.  Because every iteration
overwrites slot 0 of every entry from the never-written slot 1, each
`gideals.sort()` always sees the freshly computed image forms, and after
the call the caller's entries hold the image form under the LAST
automorphism (their order is untouched: only local list objects are
sorted).  The first component below is the returned dict; the second is
the caller's list as observable after the call. -/
def conjideals (F : NumField E I H) [LinearOrder H] [LinearOrder I]
    (ideals : List (IdealEntry I H)) (auts : List (I → I)) :
    List ((String × Nat) × String) × List (IdealEntry I H) :=
  let sorted := refSorted ideals
  let cideals := auts.enum.foldl
    (fun cideals p =>
      let gideals := imgSorted F p.2 ideals
      (sorted.zip gideals).foldl
        (fun d q => dictInsert d (q.2.label, p.1) q.1.label) cideals)
    []
  (cideals,
    match auts.getLast? with
    | none => ideals
    | some g => ideals.map (gimage F g))

/-! ### HilbertNumberField -/

/-- The state of a `HilbertNumberField` object relevant to this module:
the Sage field `self.K()` and the stored serialized lists `self.ideals`
and `self.primes` from the database record (`db.hmf_fields.lookup` and the
`WebNumberField` superclass are external glue). -/
structure HilbertFieldData (E I H : Type) where
  F : NumField E I H
  ideals : List String
  primes : List String

/-- The generator body of `_iter_ideals`, with the running state
`(count, ilabel, norm)` explicit.  The result is the list of yielded
`(label, ideal)` pairs together with a terminal exception: `none` means
the iteration ended cleanly, which includes the `raise StopIteration`
executed when `count == number` (inside a generator of this code's
vintage, StopIteration simply ends the iteration). -/
def iterIdealsAux (F : NumField E I H) (number : Option Nat) :
    Nat → Int → Int → List String → List (String × I) × Option DecodeErr
  | _, _, _, [] => ([], none)
  | count, ilabel, norm, s :: rest =>
    match str2ideal F s with
    | none => ([], some .parseError)
    | some (N, n, idl, _) =>
      if F.norm idl = N ∧ F.smallestInteger idl = n then
        let il := if N ≠ norm then 1 else ilabel
        let label := toString N ++ "." ++ toString il
        if number = some (count + 1) then ([(label, idl)], none)
        else
          let r := iterIdealsAux F number (count + 1) (il + 1) N rest
          ((label, idl) :: r.1, r.2)
      else ([], some .assertError)

/-- `_iter_ideals(self, primes=False, number=None)`. -/
def iter_ideals (d : HilbertFieldData E I H) (primes : Bool := false)
    (number : Option Nat := none) : List (String × I) × Option DecodeErr :=
  iterIdealsAux d.F number 0 1 0 (if primes then d.primes else d.ideals)

/-- `primes_iter(self, number=None)`. -/
def primes_iter (d : HilbertFieldData E I H) (number : Option Nat := none) :
    List (String × I) × Option DecodeErr :=
  iter_ideals d true number

/-- `ideals_iter(self, number=None)`. -/
def ideals_iter (d : HilbertFieldData E I H) (number : Option Nat := none) :
    List (String × I) × Option DecodeErr :=
  iter_ideals d false number

/-- The two dictionaries built by `HilbertNumberField.__init__`. -/
structure HMFIndex (I : Type) where
  ideal_dict : List (String × I)
  label_dict : List (I × String)
deriving Repr

/-- The `__init__` loop
`for I in self.ideals_iter(): ideal_dict[I['label']] = I['ideal']; label_dict[I['ideal']] = I['label']`.
If the generator raises, `__init__` propagates the exception and no object
is constructed, hence `Except`. -/
def mkIndex (d : HilbertFieldData E I H) : Except DecodeErr (HMFIndex I) :=
  match ideals_iter d none with
  | (_, some e) => .error e
  | (items, none) =>
    .ok (items.foldl
      (fun idx it =>
        { ideal_dict := dictInsert idx.ideal_dict it.1 it.2
          label_dict := dictInsert idx.label_dict it.2 it.1 })
      ⟨[], []⟩)

/-- `ideal_label(self, idl)`: dictionary lookup, `None` on `KeyError`. -/
def ideal_label [DecidableEq I] (idx : HMFIndex I) (idl : I) : Option String :=
  dictLookup idx.label_dict idl

/-- `ideal(self, lab)`: dictionary lookup, `None` on `KeyError`. -/
def ideal (idx : HMFIndex I) (lab : String) : Option I :=
  dictLookup idx.ideal_dict lab

/-- `prime_label(self, idl)`: an alias of `ideal_label`. -/
def prime_label [DecidableEq I] (idx : HMFIndex I) (idl : I) : Option String :=
  ideal_label idx idl

/-- `prime(self, lab)`: an alias of `ideal`. -/
def prime (idx : HMFIndex I) (lab : String) : Option I :=
  ideal idx lab

instance [LinearOrder H] [LinearOrder I] : IsTotal (IdealEntry I H) entryLe where
  total a b := by
    rcases lt_trichotomy a.hnf b.hnf with h | h | h
    · exact Or.inl (Or.inl h)
    · rcases lt_trichotomy a.idl b.idl with h2 | h2 | h2
      · exact Or.inl (Or.inr ⟨h, Or.inl h2⟩)
      · rcases le_total a.label b.label with h3 | h3
        · exact Or.inl (Or.inr ⟨h, Or.inr ⟨h2, h3⟩⟩)
        · exact Or.inr (Or.inr ⟨h.symm, Or.inr ⟨h2.symm, h3⟩⟩)
      · exact Or.inr (Or.inr ⟨h.symm, Or.inl h2⟩)
    · exact Or.inr (Or.inl h)

instance [LinearOrder H] [LinearOrder I] : IsTrans (IdealEntry I H) entryLe where
  trans a b c hab hbc := by
    rcases hab with h1 | ⟨e1, h1 | ⟨e1i, h1⟩⟩ <;>
      rcases hbc with h2 | ⟨e2, h2 | ⟨e2i, h2⟩⟩ <;>
        simp only [entryLe] <;>
          first
            | exact Or.inl (lt_trans h1 h2)
            | exact Or.inl (e2 ▸ h1)
            | exact Or.inl (e1 ▸ h2)
            | exact Or.inr ⟨e1.trans e2, Or.inl (lt_trans h1 h2)⟩
            | exact Or.inr ⟨e1.trans e2, Or.inl (e2i ▸ h1)⟩
            | exact Or.inr ⟨e1.trans e2, Or.inl (e1i ▸ h2)⟩
            | exact Or.inr ⟨e1.trans e2, Or.inr ⟨e1i.trans e2i, h1.trans h2⟩⟩

instance [LinearOrder H] [LinearOrder I] : IsAntisymm (IdealEntry I H) entryLe where
  antisymm a b hab hba := by
    rcases hab with h1 | ⟨e1, h1 | ⟨e1i, h1⟩⟩ <;>
      rcases hba with h2 | ⟨e2, h2 | ⟨e2i, h2⟩⟩ <;>
        first
          | exact absurd h1 (not_lt_of_lt h2)
          | exact absurd h1 (e2 ▸ lt_irrefl _)
          | exact absurd h2 (e1 ▸ lt_irrefl _)
          | exact absurd h1 (not_lt_of_lt h2)
          | exact absurd h1 (e2i ▸ lt_irrefl _)
          | exact absurd h2 (e1i ▸ lt_irrefl _)
          | (cases a; cases b
             simp only [IdealEntry.mk.injEq] at e1 e1i h1 e2 e2i h2 ⊢
             exact ⟨e1, e1i, le_antisymm h1 h2⟩)

/-- The dictionary writes performed by `conjideals` for the automorphism at
position `i`, in execution order. -/
def iterWrites [LinearOrder H] [LinearOrder I] (F : NumField E I H) (l : List (IdealEntry I H)) (i : Nat)
    (g : I → I) : List ((String × Nat) × String) :=
  ((refSorted l).zip (imgSorted F g l)).map fun q => ((q.2.label, i), q.1.label)

/-- All dictionary writes performed by `conjideals`, in execution order. -/
def conjWrites [LinearOrder H] [LinearOrder I] (F : NumField E I H) (l : List (IdealEntry I H))
    (auts : List (I → I)) : List ((String × Nat) × String) :=
  auts.enum.flatMap fun p => iterWrites F l p.1 p.2

def digitVal (c : Char) : Nat := c.toNat - 48

def digitsVal (l : List Char) : Nat :=
  l.foldl (fun a c => 10 * a + digitVal c) 0

/-- The decidable success condition for one stored string: it parses, and
the stored norm and least positive integer match the constructed ideal
(the Python `assert idl.norm() == N and idl.smallest_integer() == n`). -/
def checkStr (F : NumField E I H) (s : String) : Bool :=
  match str2ideal F s with
  | none => false
  | some (N, n, idl, _) =>
    decide (F.norm idl = N) && decide (F.smallestInteger idl = n)

/-- The sequence of stored norms of the strings that parse. -/
def normsOf (F : NumField E I H) (ss : List String) : List Int :=
  ss.filterMap fun s => (str2ideal F s).map fun t => t.1

/-! ### Concrete instances used for witnesses -/

/-- A small concrete instance of the Sage collaborator, for witnesses:
elements are integers, an ideal is the pair `(n, gen)` of its two
generators, and the norm, smallest integer and canonical form are chosen
so that the spec's example strings satisfy the stored-data assertions. -/
def exampleField : NumField Int (Int × Int) (Int × Int) where
  parseElt := fun s => parseZZ s.data
  mkIdeal := fun n g => (n, g)
  norm := fun p => p.1
  smallestInteger := fun p => p.1
  pariHnf := fun p => p

/-- The spec's concrete scenario: four serialized ideals in a field with
generator `x` (no generator letter is needed by the toy collaborator). -/
def exampleData : HilbertFieldData Int (Int × Int) (Int × Int) :=
  ⟨exampleField, ["[1,1,0]", "[2,2,0]", "[2,2,1]", "[3,3,0]"], []⟩

/-- A concrete collaborator for the `conjideals` examples: ideals and
canonical forms are integers and `pariHnf` is the identity. -/
def conjField : NumField Int Int Int where
  parseElt := fun s => parseZZ s.data
  mkIdeal := fun _ g => g
  norm := fun i => i
  smallestInteger := fun i => i
  pariHnf := fun i => i

/-- Three entries with pairwise distinct canonical forms and labels. -/
def exEntries : List (IdealEntry Int Int) :=
  [⟨0, 0, "2.1"⟩, ⟨1, 1, "3.1"⟩, ⟨2, 2, "5.1"⟩]

/-- An automorphism acting on the toy ideals `0, 1, 2` as the 3-cycle
`0 ↦ 1 ↦ 2 ↦ 0`. -/
def exAut : Int → Int :=
  fun x => (x + 1) % 3

/-- The entry list `niceideals` produces on the spec's example strings. -/
def exNice : List (IdealEntry (Int × Int) (Int × Int)) :=
  [⟨(1, 0), (1, 0), "1.1"⟩, ⟨(2, 0), (2, 0), "2.1"⟩, ⟨(2, 1), (2, 1), "2.2"⟩,
    ⟨(3, 0), (3, 0), "3.1"⟩]

/-- The index `HilbertNumberField.__init__` builds on the example data. -/
def exIdx : HMFIndex (Int × Int) :=
  ⟨[("3.1", (3, 0)), ("2.2", (2, 1)), ("2.1", (2, 0)), ("1.1", (1, 0))],
    [((3, 0), "3.1"), ((2, 1), "2.2"), ((2, 0), "2.1"), ((1, 0), "1.1")]⟩

/-! ### Dictionary lemmas -/

theorem dictLookup_cons {κ ν : Type} [DecidableEq κ] (k k' : κ) (v : ν)
    (d : List (κ × ν)) :
    dictLookup ((k, v) :: d) k' = if k = k' then some v else dictLookup d k' := by
  by_cases h : k = k' <;> simp [dictLookup, List.find?_cons, h]

theorem foldl_dictInsert {κ ν : Type} (ws : List (κ × ν)) (d0 : List (κ × ν)) :
    ws.foldl (fun d w => dictInsert d w.1 w.2) d0 = ws.reverse ++ d0 := by
  induction ws generalizing d0 with
  | nil => simp
  | cons w ws ih => simp [dictInsert, ih, List.reverse_cons, List.append_assoc]

theorem dictLookup_eq_find {κ ν : Type} [DecidableEq κ] (d : List (κ × ν)) (k : κ) :
    dictLookup d k = (d.find? fun p => decide (p.1 = k)).map Prod.snd := rfl

/-! ### The entry order -/

section EntryOrder

variable [LinearOrder H] [LinearOrder I]

theorem entryLe_refl (a : IdealEntry I H) : entryLe a a := by
  simp [entryLe]

theorem entryLe_hnf_le {a b : IdealEntry I H} (h : entryLe a b) : a.hnf ≤ b.hnf := by
  rcases h with h | ⟨e, _⟩
  · exact le_of_lt h
  · exact le_of_eq e

theorem refSorted_perm (l : List (IdealEntry I H)) : (refSorted l).Perm l :=
  List.perm_insertionSort entryLe l

theorem refSorted_sorted (l : List (IdealEntry I H)) :
    List.Sorted entryLe (refSorted l) :=
  List.sorted_insertionSort entryLe l

theorem imgSorted_perm (F : NumField E I H) (g : I → I) (l : List (IdealEntry I H)) :
    (imgSorted F g l).Perm ((refSorted l).map (gimage F g)) :=
  List.perm_insertionSort entryLe _

theorem imgSorted_sorted (F : NumField E I H) (g : I → I) (l : List (IdealEntry I H)) :
    List.Sorted entryLe (imgSorted F g l) :=
  List.sorted_insertionSort entryLe _

theorem sorted_hnf_of_sorted {l : List (IdealEntry I H)}
    (h : List.Sorted entryLe l) : List.Sorted (· ≤ ·) (l.map (·.hnf)) := by
  rw [List.Sorted, List.pairwise_map]
  exact h.imp entryLe_hnf_le

end EntryOrder

/-! ### Zip and enum lemmas -/

theorem zip_map_eq_of_map_eq {α β : Type} (f : α → β) :
    ∀ (l1 l2 : List α), l1.map f = l2.map f →
      ∀ p ∈ l1.zip l2, f p.1 = f p.2
  | [], [], _, p, hp => absurd hp (by simp)
  | [], _ :: _, h, _, _ => by simp at h
  | _ :: _, [], h, _, _ => by simp at h
  | a :: l1, b :: l2, h, p, hp => by
    simp only [List.map_cons, List.cons.injEq] at h
    rcases List.mem_cons.mp hp with rfl | hp'
    · exact h.1
    · exact zip_map_eq_of_map_eq f l1 l2 h.2 p hp'

theorem mem_zip_right {α β : Type} :
    ∀ (l1 : List α) (l2 : List β), l1.length = l2.length →
      ∀ b ∈ l2, ∃ a, (a, b) ∈ l1.zip l2
  | [], [], _, b, hb => absurd hb (by simp)
  | [], _ :: _, h, _, _ => by simp at h
  | _ :: _, [], h, _, _ => by simp at h
  | a :: l1, b' :: l2, h, b, hb => by
    rcases List.mem_cons.mp hb with rfl | hb'
    · exact ⟨a, by simp⟩
    · obtain ⟨a', ha'⟩ := mem_zip_right l1 l2 (by simpa using h) b hb'
      exact ⟨a', List.mem_cons_of_mem _ ha'⟩

theorem zip_right_unique {α β : Type} :
    ∀ (l1 : List α) (l2 : List β), l2.Nodup →
      ∀ a a' b, (a, b) ∈ l1.zip l2 → (a', b) ∈ l1.zip l2 → a = a'
  | [], _, _, a, a', b, h, _ => absurd h (by simp)
  | _ :: _, [], _, a, a', b, h, _ => absurd h (by simp)
  | x :: l1, y :: l2, hnd, a, a', b, h, h' => by
    rcases List.mem_cons.mp h with he | ht <;>
      rcases List.mem_cons.mp h' with he' | ht'
    · rw [Prod.mk.injEq] at he he'
      rw [he.1, he'.1]
    · exfalso
      have : b ∈ l2 := (List.of_mem_zip ht').2
      rw [Prod.mk.injEq] at he
      exact (List.nodup_cons.mp hnd).1 (he.2 ▸ this)
    · exfalso
      have : b ∈ l2 := (List.of_mem_zip ht).2
      rw [Prod.mk.injEq] at he'
      exact (List.nodup_cons.mp hnd).1 (he'.2 ▸ this)
    · exact zip_right_unique l1 l2 (List.nodup_cons.mp hnd).2 a a' b ht ht'

theorem mem_zip_of_get {α β : Type} :
    ∀ (l1 : List α) (l2 : List β) (j : Nat) (a : α) (b : β),
      l1.get? j = some a → l2.get? j = some b → (a, b) ∈ l1.zip l2
  | [], _, j, _, _, h, _ => by simp at h
  | _ :: _, [], j, _, _, _, h => by simp at h
  | x :: l1, y :: l2, 0, a, b, h1, h2 => by
    simp only [List.get?_cons_zero, Option.some_inj] at h1 h2
    simp [h1, h2]
  | x :: l1, y :: l2, j + 1, a, b, h1, h2 => by
    simp only [List.get?_cons_succ] at h1 h2
    exact List.mem_cons_of_mem _ (mem_zip_of_get l1 l2 j a b h1 h2)

theorem mem_enumFrom_of_get {α : Type} :
    ∀ (l : List α) (n i : Nat) (a : α), l.get? i = some a →
      (n + i, a) ∈ List.enumFrom n l
  | [], _, i, _, h => by simp at h
  | x :: l, n, 0, a, h => by
    simp only [List.get?_cons_zero, Option.some_inj] at h
    simp [List.enumFrom_cons, h]
  | x :: l, n, i + 1, a, h => by
    simp only [List.get?_cons_succ] at h
    have h2 := mem_enumFrom_of_get l (n + 1) i a h
    rw [List.enumFrom_cons]
    have he : n + (i + 1) = n + 1 + i := by omega
    rw [he]
    exact List.mem_cons_of_mem _ h2

theorem mem_enum_of_get {α : Type} (l : List α) (i : Nat) (a : α)
    (h : l.get? i = some a) : (i, a) ∈ l.enum := by
  have := mem_enumFrom_of_get l 0 i a h
  simpa [List.enum] using this

theorem get_of_mem_enumFrom {α : Type} :
    ∀ (l : List α) (n : Nat) (p : Nat × α), p ∈ List.enumFrom n l →
      l.get? (p.1 - n) = some p.2 ∧ n ≤ p.1
  | [], _, p, h => by simp at h
  | x :: l, n, p, h => by
    rw [List.enumFrom_cons] at h
    rcases List.mem_cons.mp h with rfl | ht
    · simp
    · obtain ⟨h1, h2⟩ := get_of_mem_enumFrom l (n + 1) p ht
      refine ⟨?_, by omega⟩
      have : p.1 - n = (p.1 - (n + 1)) + 1 := by omega
      rw [this, List.get?_cons_succ]
      exact h1

theorem get_of_mem_enum {α : Type} (l : List α) (p : Nat × α) (h : p ∈ l.enum) :
    l.get? p.1 = some p.2 := by
  have := get_of_mem_enumFrom l 0 p (by simpa [List.enum] using h)
  simpa using this.1

/-! ### Decomposition of the conjideals dictionary into its writes -/

section ConjWrites

variable [LinearOrder H] [LinearOrder I]

theorem inner_foldl_eq (F : NumField E I H) (l : List (IdealEntry I H)) (i : Nat)
    (g : I → I) (cid : List ((String × Nat) × String)) :
    ((refSorted l).zip (imgSorted F g l)).foldl
      (fun d q => dictInsert d (q.2.label, i) q.1.label) cid
    = (iterWrites F l i g).reverse ++ cid := by
  have h1 : (iterWrites F l i g).foldl (fun d w => dictInsert d w.1 w.2) cid
      = ((refSorted l).zip (imgSorted F g l)).foldl
          (fun d q => dictInsert d (q.2.label, i) q.1.label) cid := by
    rw [iterWrites, List.foldl_map]
  rw [← h1, foldl_dictInsert]

theorem foldl_rev_append {α β : Type} (W : α → List β) :
    ∀ (l : List α) (acc : List β),
      l.foldl (fun acc p => (W p).reverse ++ acc) acc = (l.flatMap W).reverse ++ acc
  | [], acc => by simp
  | a :: l, acc => by
    rw [List.foldl_cons, foldl_rev_append W l ((W a).reverse ++ acc),
      List.flatMap_cons, List.reverse_append, List.append_assoc]

theorem conjideals_fst (F : NumField E I H) (l : List (IdealEntry I H))
    (auts : List (I → I)) :
    (conjideals F l auts).1 = (conjWrites F l auts).reverse := by
  rw [conjideals, conjWrites]
  have h1 : auts.enum.foldl
      (fun cid p =>
        ((refSorted l).zip (imgSorted F p.2 l)).foldl
          (fun d q => dictInsert d (q.2.label, p.1) q.1.label) cid)
      []
      = auts.enum.foldl (fun cid p => (iterWrites F l p.1 p.2).reverse ++ cid) [] := by
    apply List.foldl_ext
    intro cid p _
    exact inner_foldl_eq F l p.1 p.2 cid
  simpa [h1] using foldl_rev_append (fun p => iterWrites F l p.1 p.2) auts.enum []

theorem imgSorted_labels_perm (F : NumField E I H) (g : I → I)
    (l : List (IdealEntry I H)) :
    ((imgSorted F g l).map (·.label)).Perm (l.map (·.label)) := by
  have h1 : ((imgSorted F g l).map (·.label)).Perm
      (((refSorted l).map (gimage F g)).map (·.label)) :=
    (imgSorted_perm F g l).map _
  have h2 : ((refSorted l).map (gimage F g)).map (·.label)
      = (refSorted l).map (·.label) := by
    rw [List.map_map]
    rfl
  have h3 : ((refSorted l).map (·.label)).Perm (l.map (·.label)) :=
    (refSorted_perm l).map _
  exact (h2 ▸ h1).trans h3

/-- The central lookup fact: any pair `(A, B)` aligned by the `zip` of the
reference sorted list with the image sorted list for the automorphism at
position `i` gives the table entry `(B.label, i) ↦ A.label`, provided the
entry labels are pairwise distinct. -/
theorem conjLookup (F : NumField E I H) (l : List (IdealEntry I H))
    (auts : List (I → I)) (hlab : (l.map (·.label)).Nodup)
    {i : Nat} {g : I → I} (hg : auts.get? i = some g)
    {A B : IdealEntry I H}
    (hmem : (A, B) ∈ (refSorted l).zip (imgSorted F g l)) :
    dictLookup (conjideals F l auts).1 (B.label, i) = some A.label := by
  rw [conjideals_fst, dictLookup_eq_find]
  have himg_lab : ((imgSorted F g l).map (·.label)).Nodup :=
    (imgSorted_labels_perm F g l).nodup_iff.mpr hlab
  have himg_nd : (imgSorted F g l).Nodup := List.Nodup.of_map _ himg_lab
  have hw0 : ((B.label, i), A.label) ∈ conjWrites F l auts := by
    rw [conjWrites, List.mem_flatMap]
    refine ⟨(i, g), mem_enum_of_get auts i g hg, ?_⟩
    rw [iterWrites, List.mem_map]
    exact ⟨(A, B), hmem, rfl⟩
  have hsome : ((conjWrites F l auts).reverse.find?
      fun w => decide (w.1 = (B.label, i))).isSome := by
    rw [List.find?_isSome]
    exact ⟨((B.label, i), A.label), List.mem_reverse.mpr hw0, by simp⟩
  obtain ⟨w, hw⟩ := Option.isSome_iff_exists.mp hsome
  have hwkey : w.1 = (B.label, i) := by
    have := List.find?_some hw
    simpa using this
  have hwmem : w ∈ conjWrites F l auts :=
    List.mem_reverse.mp (List.mem_of_find?_eq_some hw)
  rw [conjWrites, List.mem_flatMap] at hwmem
  obtain ⟨p, hp, hwp⟩ := hwmem
  rw [iterWrites, List.mem_map] at hwp
  obtain ⟨q, hq, rfl⟩ := hwp
  have hpi : p.1 = i := congrArg Prod.snd hwkey
  have hqB : q.2.label = B.label := congrArg Prod.fst hwkey
  have hpg : p.2 = g := by
    have hget := get_of_mem_enum auts p hp
    rw [hpi, hg] at hget
    exact (Option.some_inj.mp hget).symm
  rw [hpg] at hq
  have hq2 : q.2 ∈ imgSorted F g l := (List.of_mem_zip hq).2
  have hB2 : B ∈ imgSorted F g l := (List.of_mem_zip hmem).2
  have hq2B : q.2 = B := List.inj_on_of_nodup_map himg_lab hq2 hB2 hqB
  have hq1A : q.1 = A := by
    refine zip_right_unique _ _ himg_nd q.1 A B ?_ hmem
    rw [← hq2B]
    exact hq
  rw [hw]
  simp [hq1A]

end ConjWrites

/-! ### Alignment of the two sorted views by canonical form -/

section Alignment

variable [LinearOrder H] [LinearOrder I]

/-- When `g` permutes the multiset of canonical forms of the entries, the
image sorted list carries exactly the same canonical forms, position by
position, as the reference sorted list. -/
theorem imgSorted_map_hnf (F : NumField E I H) (g : I → I)
    (l : List (IdealEntry I H))
    (hperm : (l.map fun e => F.pariHnf (g e.idl)).Perm (l.map (·.hnf))) :
    (imgSorted F g l).map (·.hnf) = (refSorted l).map (·.hnf) := by
  have hs1 : List.Sorted (· ≤ ·) ((imgSorted F g l).map (·.hnf)) :=
    sorted_hnf_of_sorted (imgSorted_sorted F g l)
  have hs2 : List.Sorted (· ≤ ·) ((refSorted l).map (·.hnf)) :=
    sorted_hnf_of_sorted (refSorted_sorted l)
  refine List.eq_of_perm_of_sorted ?_ hs1 hs2
  have h1 : ((imgSorted F g l).map (·.hnf)).Perm
      (((refSorted l).map (gimage F g)).map (·.hnf)) :=
    (imgSorted_perm F g l).map _
  have h2 : ((refSorted l).map (gimage F g)).map (·.hnf)
      = (refSorted l).map fun e => F.pariHnf (g e.idl) := by
    rw [List.map_map]
    rfl
  have h3 : ((refSorted l).map fun e => F.pariHnf (g e.idl)).Perm
      (l.map fun e => F.pariHnf (g e.idl)) :=
    (refSorted_perm l).map _
  have h4 : ((refSorted l).map (·.hnf)).Perm (l.map (·.hnf)) :=
    (refSorted_perm l).map _
  exact (((h2 ▸ h1).trans h3).trans hperm).trans h4.symm

theorem length_refSorted (l : List (IdealEntry I H)) :
    (refSorted l).length = l.length :=
  List.length_insertionSort entryLe l

theorem length_imgSorted (F : NumField E I H) (g : I → I)
    (l : List (IdealEntry I H)) :
    (imgSorted F g l).length = l.length := by
  rw [imgSorted, List.length_insertionSort, List.length_map, length_refSorted]

end Alignment

/-! ### Claims about conjideals -/

/-- C1: for every entry list with pairwise distinct canonical forms (and
distinct labels, the FieldIdealIndex invariant), and every automorphism
`g` at position `i` of the automorphism list that permutes the set of
canonical forms of the entries, the table returned by `conjideals`
contains, for every label `eL.label` in the index, the entry
`(eL.label, i) ↦ eM.label` where `eM` is the entry whose canonical form is
that of `g` applied to the ideal labeled `eL.label`. -/
theorem claim_C1 (F : NumField E I H) [LinearOrder H] [LinearOrder I]
    (ideals : List (IdealEntry I H)) (auts : List (I → I))
    (hhnf : (ideals.map (·.hnf)).Nodup)
    (hlab : (ideals.map (·.label)).Nodup)
    (i : Nat) (g : I → I) (hg : auts.get? i = some g)
    (hperm : (ideals.map fun e => F.pariHnf (g e.idl)).Perm (ideals.map (·.hnf)))
    (eL eM : IdealEntry I H) (hL : eL ∈ ideals) (hM : eM ∈ ideals)
    (him : eM.hnf = F.pariHnf (g eL.idl)) :
    dictLookup (conjideals F ideals auts).1 (eL.label, i) = some eM.label := by
  have hLs : eL ∈ refSorted ideals := (refSorted_perm ideals).mem_iff.mpr hL
  have hMs : eM ∈ refSorted ideals := (refSorted_perm ideals).mem_iff.mpr hM
  have hLimg : gimage F g eL ∈ imgSorted F g ideals :=
    (imgSorted_perm F g ideals).mem_iff.mpr (List.mem_map_of_mem _ hLs)
  have hlen : (refSorted ideals).length = (imgSorted F g ideals).length := by
    rw [length_refSorted, length_imgSorted]
  obtain ⟨a, hz⟩ := mem_zip_right _ _ hlen (gimage F g eL) hLimg
  have hmap : (refSorted ideals).map (·.hnf) = (imgSorted F g ideals).map (·.hnf) :=
    (imgSorted_map_hnf F g ideals hperm).symm
  have hahnf : a.hnf = eM.hnf := by
    have := zip_map_eq_of_map_eq (·.hnf) _ _ hmap (a, gimage F g eL) hz
    simpa [gimage, him] using this
  have hrlab : ((refSorted ideals).map (·.hnf)).Nodup :=
    (((refSorted_perm ideals).map (·.hnf)).nodup_iff).mpr hhnf
  have haM : a = eM :=
    List.inj_on_of_nodup_map hrlab (List.of_mem_zip hz).1 hMs hahnf
  have := conjLookup F ideals auts hlab hg (haM ▸ hz)
  simpa [gimage] using this

/-- C1 witness: the 3-cycle example. -/
theorem claim_C1_witness :
    dictLookup (conjideals conjField exEntries [exAut]).1 ("2.1", 0) = some "3.1" :=
  claim_C1 conjField exEntries [exAut] (by decide) (by decide) 0 exAut rfl
    (by decide) ⟨0, 0, "2.1"⟩ ⟨1, 1, "3.1"⟩ (by decide) (by decide) (by decide)

/-- C5 counterexample: with the 3-cycle automorphism at index 0, at `j = 1`
the reference sorted list carries label `"3.1"` and the image sorted list
carries label `"2.1"`, but the table maps `("3.1", 0)` to `"5.1"`, not to
`"2.1"`: the emitted entry is NOT `(reference[j].label, i) ↦ image[j].label`. -/
theorem claim_C5_counterexample :
    ((refSorted exEntries).map (·.label)).get? 1 = some "3.1" ∧
    ((imgSorted conjField exAut exEntries).map (·.label)).get? 1 = some "2.1" ∧
    dictLookup (conjideals conjField exEntries [exAut]).1 ("3.1", 0) = some "5.1" ∧
    ("5.1" : String) ≠ "2.1" := by
  decide

/-- C5 amended: for every automorphism index `i` and position `j`, the
emitted entry is keyed by the label of the `j`-th entry of the IMAGE list
sorted by image canonical form, and its value is the label of the `j`-th
entry of the reference sorted list: entry `(image[j].label, i) ↦
reference[j].label` (with pairwise distinct entry labels, the index
invariant, so the entry survives in the final table). -/
theorem claim_C5_amended (F : NumField E I H) [LinearOrder H] [LinearOrder I]
    (ideals : List (IdealEntry I H)) (auts : List (I → I))
    (hlab : (ideals.map (·.label)).Nodup)
    (i : Nat) (g : I → I) (hg : auts.get? i = some g)
    (j : Nat) (A B : IdealEntry I H)
    (hA : (refSorted ideals).get? j = some A)
    (hB : (imgSorted F g ideals).get? j = some B) :
    dictLookup (conjideals F ideals auts).1 (B.label, i) = some A.label :=
  conjLookup F ideals auts hlab hg (mem_zip_of_get _ _ j A B hA hB)

/-- C5 amended witness: position 0 of the 3-cycle example. -/
theorem claim_C5_amended_witness :
    dictLookup (conjideals conjField exEntries [exAut]).1 ("5.1", 0) = some "2.1" :=
  claim_C5_amended conjField exEntries [exAut] (by decide) 0 exAut rfl 0
    ⟨0, 0, "2.1"⟩ ⟨0, 2, "5.1"⟩ (by decide) (by decide)

/-- C7: `conjideals` mutates its argument through the shallow copies: after
the call with the 3-cycle automorphism, every entry of the caller's list
has its canonical-form slot overwritten with the canonical form of the
image ideal, so the caller's list is NOT left unchanged.  (The `copy`
calls show the intent was to leave the argument untouched; the shallow
copy shares the inner `[hnf, idl, label]` lists, so `I[0] = ...` writes
through to the caller.) -/
theorem claim_C7_mutation :
    (conjideals conjField exEntries [exAut]).2
      = [⟨1, 0, "2.1"⟩, ⟨2, 1, "3.1"⟩, ⟨0, 2, "5.1"⟩] ∧
    (conjideals conjField exEntries [exAut]).2 ≠ exEntries := by
  decide

/-! ### Facts about decimal string representations

Needed to show that labels `toString N ++ "." ++ toString k` are unique
exactly when the pairs `(N, k)` are: decimal digit strings contain neither
`'.'` nor `'-'`, and `toString` on integers is injective. -/

theorem digitChar_spec (m : Nat) (h : m < 10) :
    digitVal (Nat.digitChar m) = m ∧ Nat.digitChar m ≠ '.' ∧ Nat.digitChar m ≠ '-' := by
  interval_cases m <;> refine ⟨by decide, by decide, by decide⟩

theorem toDigitsCore_append (b : Nat) :
    ∀ (f n : Nat) (ds : List Char),
      Nat.toDigitsCore b f n ds = Nat.toDigitsCore b f n [] ++ ds
  | 0, _, _ => rfl
  | f + 1, n, ds => by
    simp only [Nat.toDigitsCore]
    by_cases h : n / b = 0
    · simp [h]
    · simp only [if_neg h]
      rw [toDigitsCore_append b f (n / b) (Nat.digitChar (n % b) :: ds),
        toDigitsCore_append b f (n / b) [Nat.digitChar (n % b)], List.append_assoc,
        List.singleton_append]

theorem mem_toDigitsCore :
    ∀ (f n : Nat) (ds : List Char) (c : Char), c ∈ Nat.toDigitsCore 10 f n ds →
      c ∈ ds ∨ ∃ m, m < 10 ∧ c = Nat.digitChar m
  | 0, _, _, _, h => Or.inl h
  | f + 1, n, ds, c, h => by
    simp only [Nat.toDigitsCore] at h
    by_cases h0 : n / 10 = 0
    · rw [if_pos h0] at h
      rcases List.mem_cons.mp h with rfl | hd
      · exact Or.inr ⟨n % 10, Nat.mod_lt _ (by norm_num), rfl⟩
      · exact Or.inl hd
    · rw [if_neg h0] at h
      rcases mem_toDigitsCore f (n / 10) _ c h with hd | hd
      · rcases List.mem_cons.mp hd with rfl | hd2
        · exact Or.inr ⟨n % 10, Nat.mod_lt _ (by norm_num), rfl⟩
        · exact Or.inl hd2
      · exact Or.inr hd

theorem digitsVal_toDigits (n : Nat) : ∀ (f : Nat), n < f →
    digitsVal (Nat.toDigitsCore 10 f n []) = n := by
  induction n using Nat.strong_induction_on with
  | _ n ih =>
    intro f hf
    cases f with
    | zero => omega
    | succ f =>
      simp only [Nat.toDigitsCore]
      by_cases h0 : n / 10 = 0
      · rw [if_pos h0]
        have hn : n < 10 := (Nat.div_eq_zero_iff (by norm_num)).mp h0
        have hd := (digitChar_spec n hn).1
        simp [digitsVal, Nat.mod_eq_of_lt hn, hd]
      · rw [if_neg h0]
        rw [toDigitsCore_append 10 f (n / 10) [Nat.digitChar (n % 10)]]
        have hne : n ≠ 0 := by
          intro h
          subst h
          simp at h0
        have h1 : n / 10 < n := Nat.div_lt_self (Nat.pos_of_ne_zero hne) (by norm_num)
        have hrec := ih (n / 10) h1 f (by omega)
        have hd := (digitChar_spec (n % 10) (Nat.mod_lt _ (by norm_num))).1
        simp only [digitsVal] at hrec ⊢
        rw [List.foldl_append, hrec]
        simp only [List.foldl, hd]
        have := Nat.div_add_mod n 10
        omega

theorem natRepr_inj {n m : Nat} (h : Nat.repr n = Nat.repr m) : n = m := by
  have hl : Nat.toDigitsCore 10 (n + 1) n [] = Nat.toDigitsCore 10 (m + 1) m [] :=
    congrArg String.data h
  have h1 := digitsVal_toDigits n (n + 1) (by omega)
  have h2 := digitsVal_toDigits m (m + 1) (by omega)
  rw [← h1, ← h2, hl]

theorem natRepr_no_dot (n : Nat) :
    '.' ∉ (Nat.repr n).data ∧ '-' ∉ (Nat.repr n).data := by
  constructor <;>
    · intro hmem
      rcases mem_toDigitsCore (n + 1) n [] _ hmem with h | ⟨m, hm, he⟩
      · simp at h
      · rcases digitChar_spec m hm with ⟨_, hd1, hd2⟩
        first
          | exact hd1 he.symm
          | exact hd2 he.symm

theorem intToString_no_dot (i : Int) : '.' ∉ (toString i).data := by
  cases i with
  | ofNat m => exact (natRepr_no_dot m).1
  | negSucc m =>
    have hdata : (toString (Int.negSucc m)).data = '-' :: (Nat.repr (m + 1)).data := by
      show ("-" ++ Nat.repr (m + 1)).data = _
      rw [String.data_append]
      rfl
    rw [hdata]
    intro hmem
    rcases List.mem_cons.mp hmem with h | h
    · exact absurd h (by decide)
    · exact (natRepr_no_dot (m + 1)).1 h

theorem intToString_inj : ∀ {i j : Int}, toString i = toString j → i = j
  | .ofNat m, .ofNat k, h => congrArg Int.ofNat (natRepr_inj h)
  | .ofNat m, .negSucc k, h => by
    exfalso
    have hdata : (Nat.repr m).data = '-' :: (Nat.repr (k + 1)).data := by
      have := congrArg String.data h
      rwa [show (toString (Int.negSucc k)).data = '-' :: (Nat.repr (k + 1)).data by
        show ("-" ++ Nat.repr (k + 1)).data = _
        rw [String.data_append]
        rfl] at this
    exact (natRepr_no_dot m).2 (hdata ▸ List.mem_cons_self _ _)
  | .negSucc m, .ofNat k, h => by
    exfalso
    have hdata : (Nat.repr k).data = '-' :: (Nat.repr (m + 1)).data := by
      have := congrArg String.data h.symm
      rwa [show (toString (Int.negSucc m)).data = '-' :: (Nat.repr (m + 1)).data by
        show ("-" ++ Nat.repr (m + 1)).data = _
        rw [String.data_append]
        rfl] at this
    exact (natRepr_no_dot k).2 (hdata ▸ List.mem_cons_self _ _)
  | .negSucc m, .negSucc k, h => by
    have hdata := congrArg String.data h
    rw [show (toString (Int.negSucc m)).data = '-' :: (Nat.repr (m + 1)).data by
        show ("-" ++ Nat.repr (m + 1)).data = _
        rw [String.data_append]
        rfl,
      show (toString (Int.negSucc k)).data = '-' :: (Nat.repr (k + 1)).data by
        show ("-" ++ Nat.repr (k + 1)).data = _
        rw [String.data_append]
        rfl] at hdata
    have htl : (Nat.repr (m + 1)).data = (Nat.repr (k + 1)).data := by
      injection hdata
    have hmk : m + 1 = k + 1 := natRepr_inj (String.ext htl)
    exact congrArg Int.negSucc (by omega)

theorem append_dot_inj :
    ∀ (a1 a2 b1 b2 : List Char), '.' ∉ a1 → '.' ∉ a2 →
      a1 ++ '.' :: b1 = a2 ++ '.' :: b2 → a1 = a2 ∧ b1 = b2
  | [], [], b1, b2, _, _, h => ⟨rfl, by simpa using h⟩
  | [], x :: a2, b1, b2, _, h2, h => by
    exfalso
    simp only [List.nil_append, List.cons_append, List.cons.injEq] at h
    exact h2 (h.1 ▸ List.mem_cons_self x a2)
  | x :: a1, [], b1, b2, h1, _, h => by
    exfalso
    simp only [List.nil_append, List.cons_append, List.cons.injEq] at h
    exact h1 (h.1.symm ▸ List.mem_cons_self x a1)
  | x :: a1, y :: a2, b1, b2, h1, h2, h => by
    simp only [List.cons_append, List.cons.injEq] at h
    have := append_dot_inj a1 a2 b1 b2 (fun hc => h1 (List.mem_cons_of_mem _ hc))
      (fun hc => h2 (List.mem_cons_of_mem _ hc)) h.2
    exact ⟨by rw [h.1, this.1], this.2⟩

/-- The label strings built by the labeling loops are injective in the
pair (norm, rank). -/
theorem label_inj {N1 r1 N2 r2 : Int}
    (h : toString N1 ++ "." ++ toString r1 = toString N2 ++ "." ++ toString r2) :
    N1 = N2 ∧ r1 = r2 := by
  have hd := congrArg String.data h
  rw [String.data_append, String.data_append, String.data_append,
    String.data_append] at hd
  have hd2 : (toString N1).data ++ '.' :: (toString r1).data
      = (toString N2).data ++ '.' :: (toString r2).data := by
    simpa [List.append_assoc] using hd
  have h2 := append_dot_inj _ _ _ _ (intToString_no_dot N1) (intToString_no_dot N2) hd2
  exact ⟨intToString_inj (String.ext h2.1), intToString_inj (String.ext h2.2)⟩

/-! ### The labeling loop -/

theorem checkStr_elim {F : NumField E I H} {s : String} (h : checkStr F s = true) :
    ∃ N n idl gen, str2ideal F s = some (N, n, idl, gen) ∧
      F.norm idl = N ∧ F.smallestInteger idl = n := by
  rw [checkStr] at h
  rcases hp : str2ideal F s with - | ⟨N, n, idl, gen⟩
  · rw [hp] at h
    simp at h
  · rw [hp] at h
    simp only [Bool.and_eq_true, decide_eq_true_eq] at h
    exact ⟨N, n, idl, gen, rfl, h.1, h.2⟩

theorem normsOf_length (F : NumField E I H) :
    ∀ ss : List String, (∀ s ∈ ss, checkStr F s = true) →
      (normsOf F ss).length = ss.length
  | [], _ => rfl
  | s :: rest, hok => by
    obtain ⟨N, n, idl, gen, hp, -, -⟩ := checkStr_elim (hok s (List.mem_cons_self s rest))
    have h1 : normsOf F (s :: rest) = N :: normsOf F rest := by
      rw [normsOf, List.filterMap_cons, hp]
      rfl
    rw [h1, List.length_cons, List.length_cons,
      normsOf_length F rest fun t ht => hok t (List.mem_cons_of_mem s ht)]

theorem count_take_lt {ns : List Int} {i j : Nat} {N : Int} (hij : i < j)
    (hi : ns.get? i = some N) : (ns.take i).count N < (ns.take j).count N := by
  have hge : (ns.take (i + 1)).count N = (ns.take i).count N + 1 := by
    rw [List.take_succ, ← List.get?_eq_getElem?, hi]
    simp [List.count_append]
  have hsub : (ns.take (i + 1)).Sublist (ns.take j) := by
    have h : ns.take (i + 1) = (ns.take j).take (i + 1) := by
      rw [List.take_take, min_eq_left (by omega)]
    rw [h]
    exact List.take_sublist _ _
  have := hsub.count_le N
  omega

/-- The label/rank characterization of the loop underlying both
`niceideals` and `_iter_ideals`.  With running state `(ilabel, norm)` and
input whose norm sequence is nondecreasing, the `j`-th produced label is
the `j`-th norm dotted with its 1-based rank inside its norm group (the
initial group continues from `ilabel` when it extends the accumulator
norm). -/
theorem niceidealsAux_labels (F : NumField E I H) :
    ∀ (ss : List String) (ilabel norm : Int),
      (∀ s ∈ ss, checkStr F s = true) →
      (normsOf F ss).Chain' (· ≤ ·) →
      (ilabel = 1 ∨ ∀ N0, (normsOf F ss).head? = some N0 → norm ≤ N0) →
      ∃ l, niceidealsAux F ilabel norm ss = .ok l ∧
        l.length = ss.length ∧
        ∀ j N, (normsOf F ss).get? j = some N →
          (l.map (·.label)).get? j = some (toString N ++ "." ++
            toString ((if N = norm then ilabel else 1) +
              (((normsOf F ss).take j).count N : Int)))
  | [], ilabel, norm, _, _, _ => ⟨[], rfl, rfl, fun j N h => by simp [normsOf] at h⟩
  | s :: rest, ilabel, norm, hok, hmono, hacc => by
    obtain ⟨N0, n0, idl0, gen0, hp, ha1, ha2⟩ :=
      checkStr_elim (hok s (List.mem_cons_self s rest))
    have hnorms : normsOf F (s :: rest) = N0 :: normsOf F rest := by
      rw [normsOf, List.filterMap_cons, hp]
      rfl
    have hok' : ∀ t ∈ rest, checkStr F t = true :=
      fun t ht => hok t (List.mem_cons_of_mem s ht)
    have hmono' : (normsOf F rest).Chain' (· ≤ ·) := by
      have := hmono
      rw [hnorms] at this
      exact this.tail
    have hhead : ∀ N1, (normsOf F rest).head? = some N1 → N0 ≤ N1 := by
      intro N1 hN1
      rcases hnr : normsOf F rest with - | ⟨a, tl⟩
      · rw [hnr] at hN1
        simp at hN1
      · rw [hnr] at hN1
        simp only [List.head?_cons, Option.some_inj] at hN1
        have hm2 := hmono
        rw [hnorms, hnr, List.chain'_cons] at hm2
        exact hN1 ▸ hm2.1
    obtain ⟨l', hr, hlen', hchar'⟩ :=
      niceidealsAux_labels F rest ((if N0 ≠ norm then 1 else ilabel) + 1) N0
        hok' hmono' (Or.inr hhead)
    refine ⟨⟨F.pariHnf idl0, idl0,
      toString N0 ++ "." ++ toString (if N0 ≠ norm then 1 else ilabel)⟩ :: l',
      ?_, ?_, ?_⟩
    · simp only [niceidealsAux, hp, ha1, ha2, and_self, if_true, hr]
    · simp [hlen']
    · intro j N hget
      rw [hnorms] at hget ⊢
      cases j with
      | zero =>
        simp only [List.get?_cons_zero, Option.some_inj] at hget
        subst hget
        have hil : (if N0 ≠ norm then (1 : Int) else ilabel)
            = if N0 = norm then ilabel else 1 := by
          by_cases hn : N0 = norm <;> simp [hn]
        simp [hil]
      | succ k =>
        simp only [List.get?_cons_succ] at hget
        have hNnr : N ∈ normsOf F rest := List.get?_mem hget
        have hrank : ((if N = N0 then (if N0 ≠ norm then (1 : Int) else ilabel) + 1 else 1) +
              ((((normsOf F rest).take k).count N : Nat) : Int))
            = ((if N = norm then ilabel else 1) +
              ((((N0 :: normsOf F rest).take (k + 1)).count N : Nat) : Int)) := by
          rw [List.take_succ_cons, List.count_cons]
          by_cases h1 : N = N0
          · subst h1
            by_cases h2 : N = norm
            · have e1 : (if N = N then (if N ≠ norm then (1 : Int) else ilabel) + 1 else 1)
                  = ilabel + 1 := by simp [h2]
              have e2 : (if N = norm then ilabel else (1 : Int)) = ilabel := if_pos h2
              have e3 : (if (N == N) = true then (1 : Nat) else 0) = 1 := by simp
              rw [e1, e2, e3]
              push_cast
              ring
            · have e1 : (if N = N then (if N ≠ norm then (1 : Int) else ilabel) + 1 else 1)
                  = 1 + 1 := by simp [h2]
              have e2 : (if N = norm then ilabel else (1 : Int)) = 1 := if_neg h2
              have e3 : (if (N == N) = true then (1 : Nat) else 0) = 1 := by simp
              rw [e1, e2, e3]
              push_cast
              ring
          · have hb : (N0 == N) = false :=
              beq_eq_false_iff_ne.mpr fun he => h1 he.symm
            have hone : (if N = norm then ilabel else 1) = 1 := by
              rcases hacc with h | h
              · by_cases h2 : N = norm <;> simp [h2, h]
              · by_cases h2 : N = norm
                · exfalso
                  have hn0 : norm ≤ N0 := by
                    apply h N0
                    rw [hnorms]
                    rfl
                  have hN0N : N0 ≤ N := by
                    have hpw := (List.chain'_iff_pairwise.mp (hnorms ▸ hmono))
                    exact List.rel_of_pairwise_cons hpw hNnr
                  have hN0norm : N0 = norm := le_antisymm (h2 ▸ hN0N) hn0
                  exact h1 (h2.trans hN0norm.symm)
                · rw [if_neg h2]
            rw [hb, hone, if_neg h1]
            simp
        rw [List.map_cons, List.get?_cons_succ, hchar' k N hget, hrank]

/-- `niceideals` with the initial state `(1, 0)`: the `j`-th label is the
`j`-th norm dotted with `1 +` the number of earlier entries of the same
norm. -/
theorem niceideals_labels (F : NumField E I H) (ss : List String)
    (hok : ∀ s ∈ ss, checkStr F s = true)
    (hmono : (normsOf F ss).Chain' (· ≤ ·)) :
    ∃ l, niceideals F ss = .ok l ∧ l.length = ss.length ∧
      ∀ j N, (normsOf F ss).get? j = some N →
        (l.map (·.label)).get? j = some (toString N ++ "." ++
          toString (1 + (((normsOf F ss).take j).count N : Int))) := by
  obtain ⟨l, h1, h2, h3⟩ := niceidealsAux_labels F ss 1 0 hok hmono (Or.inl rfl)
  refine ⟨l, h1, h2, fun j N hget => ?_⟩
  have he : (if N = (0 : Int) then (1 : Int) else 1) = 1 := by simp
  rw [h3 j N hget, he]

/-- The labels produced by a successful `niceideals` run on input sorted
by ascending norm are pairwise distinct. -/
theorem niceideals_labels_nodup (F : NumField E I H) (ss : List String)
    (hok : ∀ s ∈ ss, checkStr F s = true)
    (hmono : (normsOf F ss).Chain' (· ≤ ·))
    {l : List (IdealEntry I H)} (hl : niceideals F ss = .ok l) :
    (l.map (·.label)).Nodup := by
  obtain ⟨l2, h1, h2, h3⟩ := niceideals_labels F ss hok hmono
  rw [hl] at h1
  injection h1 with h1
  subst h1
  have hns : (normsOf F ss).length = ss.length := normsOf_length F ss hok
  have hLlen : (l.map (·.label)).length = ss.length := by
    rw [List.length_map, h2]
  rw [List.Nodup, List.pairwise_iff_get]
  intro i j hij heq
  have hilt : i.val < (normsOf F ss).length := by omega
  have hjlt : j.val < (normsOf F ss).length := by
    have := j.isLt
    omega
  have hgi := List.get?_eq_get hilt
  have hgj := List.get?_eq_get hjlt
  have hLi := h3 i.val _ hgi
  have hLj := h3 j.val _ hgj
  rw [List.get?_eq_get i.isLt, Option.some_inj] at hLi
  rw [List.get?_eq_get j.isLt, Option.some_inj] at hLj
  rw [heq, hLj] at hLi
  obtain ⟨hN, hr⟩ := label_inj hLi
  have hci : ((((normsOf F ss).take j.val).count ((normsOf F ss).get ⟨j.val, hjlt⟩) : Nat) : Int)
      = (((normsOf F ss).take i.val).count ((normsOf F ss).get ⟨i.val, hilt⟩) : Nat) := by
    omega
  have hlt : (((normsOf F ss).take i.val).count ((normsOf F ss).get ⟨i.val, hilt⟩))
      < (((normsOf F ss).take j.val).count ((normsOf F ss).get ⟨j.val, hjlt⟩)) := by
    have hc := count_take_lt (show i.val < j.val from hij) hgi
    rw [hN]
    exact hc
  omega

/-! ### Unfolding lemmas for the two loops -/

theorem niceidealsAux_cons_none (F : NumField E I H) (ilabel norm : Int)
    (s : String) (rest : List String) (hp : str2ideal F s = none) :
    niceidealsAux F ilabel norm (s :: rest) = .error .parseError := by
  rw [niceidealsAux, hp]

theorem niceidealsAux_cons (F : NumField E I H) (ilabel norm : Int) (s : String)
    (rest : List String) (N n : Int) (idl : I) (gen : E)
    (hp : str2ideal F s = some (N, n, idl, gen)) :
    niceidealsAux F ilabel norm (s :: rest) =
      if F.norm idl = N ∧ F.smallestInteger idl = n then
        match niceidealsAux F ((if N ≠ norm then 1 else ilabel) + 1) N rest with
        | .ok l => .ok (⟨F.pariHnf idl, idl,
            toString N ++ "." ++ toString (if N ≠ norm then (1 : Int) else ilabel)⟩ :: l)
        | .error e => .error e
      else .error .assertError := by
  rw [niceidealsAux, hp]

theorem iterIdealsAux_cons_none (F : NumField E I H) (number : Option Nat)
    (count : Nat) (ilabel norm : Int) (s : String) (rest : List String)
    (hp : str2ideal F s = none) :
    iterIdealsAux F number count ilabel norm (s :: rest) = ([], some .parseError) := by
  rw [iterIdealsAux, hp]

theorem iterIdealsAux_cons (F : NumField E I H) (number : Option Nat)
    (count : Nat) (ilabel norm : Int) (s : String) (rest : List String)
    (N n : Int) (idl : I) (gen : E)
    (hp : str2ideal F s = some (N, n, idl, gen)) :
    iterIdealsAux F number count ilabel norm (s :: rest) =
      if F.norm idl = N ∧ F.smallestInteger idl = n then
        if number = some (count + 1) then
          ([(toString N ++ "." ++ toString (if N ≠ norm then (1 : Int) else ilabel), idl)],
            none)
        else
          ((toString N ++ "." ++ toString (if N ≠ norm then (1 : Int) else ilabel), idl) ::
              (iterIdealsAux F number (count + 1)
                ((if N ≠ norm then 1 else ilabel) + 1) N rest).1,
            (iterIdealsAux F number (count + 1)
              ((if N ≠ norm then 1 else ilabel) + 1) N rest).2)
      else ([], some .assertError) := by
  rw [iterIdealsAux, hp]

/-! ### Bridge between niceideals and the iterator -/

theorem iter_of_nice (F : NumField E I H) :
    ∀ (ss : List String) (count : Nat) (ilabel norm : Int) (l : List (IdealEntry I H)),
      niceidealsAux F ilabel norm ss = .ok l →
      iterIdealsAux F none count ilabel norm ss = (l.map fun e => (e.label, e.idl), none)
  | [], count, ilabel, norm, l, h => by
    have h0 : (Except.ok [] : Except DecodeErr (List (IdealEntry I H))) = .ok l := h
    injection h0 with h0
    subst h0
    rfl
  | s :: rest, count, ilabel, norm, l, h => by
    rcases hp : str2ideal F s with - | ⟨N, n, idl, gen⟩
    · rw [niceidealsAux_cons_none F ilabel norm s rest hp] at h
      simp at h
    · rw [niceidealsAux_cons F ilabel norm s rest N n idl gen hp] at h
      by_cases ha : F.norm idl = N ∧ F.smallestInteger idl = n
      · rw [if_pos ha] at h
        rcases hr : niceidealsAux F ((if N ≠ norm then 1 else ilabel) + 1) N rest
          with e | l'
        · rw [hr] at h
          simp at h
        · rw [hr] at h
          simp only [Except.ok.injEq] at h
          subst h
          rw [iterIdealsAux_cons F none count ilabel norm s rest N n idl gen hp,
            if_pos ha, if_neg (by simp : ¬(none : Option Nat) = some (count + 1)),
            iter_of_nice F rest (count + 1) ((if N ≠ norm then 1 else ilabel) + 1) N l' hr]
          rfl
      · rw [if_neg ha] at h
        simp at h

theorem nice_of_iter (F : NumField E I H) :
    ∀ (ss : List String) (count : Nat) (ilabel norm : Int),
      (iterIdealsAux F none count ilabel norm ss).2 = none →
      ∃ l, niceidealsAux F ilabel norm ss = .ok l
  | [], _, _, _, _ => ⟨[], rfl⟩
  | s :: rest, count, ilabel, norm, h => by
    rcases hp : str2ideal F s with - | ⟨N, n, idl, gen⟩
    · rw [iterIdealsAux_cons_none F none count ilabel norm s rest hp] at h
      simp at h
    · rw [iterIdealsAux_cons F none count ilabel norm s rest N n idl gen hp] at h
      by_cases ha : F.norm idl = N ∧ F.smallestInteger idl = n
      · rw [if_pos ha, if_neg (by simp : ¬(none : Option Nat) = some (count + 1))] at h
        replace h : (iterIdealsAux F none (count + 1)
            ((if N ≠ norm then 1 else ilabel) + 1) N rest).2 = none := h
        obtain ⟨l', hl'⟩ :=
          nice_of_iter F rest (count + 1) ((if N ≠ norm then 1 else ilabel) + 1) N h
        exact ⟨_, by
          rw [niceidealsAux_cons F ilabel norm s rest N n idl gen hp, if_pos ha, hl']⟩
      · rw [if_neg ha] at h
        simp at h

theorem niceAux_ok_checkStr (F : NumField E I H) :
    ∀ (ss : List String) (ilabel norm : Int) (l : List (IdealEntry I H)),
      niceidealsAux F ilabel norm ss = .ok l → ∀ s ∈ ss, checkStr F s = true
  | [], _, _, _, _, s, hs => absurd hs (by simp)
  | t :: rest, ilabel, norm, l, h, s, hs => by
    rcases hp : str2ideal F t with - | ⟨N, n, idl, gen⟩
    · rw [niceidealsAux_cons_none F ilabel norm t rest hp] at h
      simp at h
    · rw [niceidealsAux_cons F ilabel norm t rest N n idl gen hp] at h
      by_cases ha : F.norm idl = N ∧ F.smallestInteger idl = n
      · rcases List.mem_cons.mp hs with rfl | hs'
        · rw [checkStr, hp]
          simp [ha.1, ha.2]
        · rw [if_pos ha] at h
          rcases hr : niceidealsAux F ((if N ≠ norm then 1 else ilabel) + 1) N rest
            with e | l'
          · rw [hr] at h
            simp at h
          · exact niceAux_ok_checkStr F rest _ _ l' hr s hs'
      · rw [if_neg ha] at h
        simp at h

theorem niceAux_ok_of_checkStr (F : NumField E I H) :
    ∀ (ss : List String) (ilabel norm : Int),
      (∀ s ∈ ss, checkStr F s = true) →
      ∃ l, niceidealsAux F ilabel norm ss = .ok l
  | [], _, _, _ => ⟨[], rfl⟩
  | s :: rest, ilabel, norm, hok => by
    obtain ⟨N, n, idl, gen, hp, ha1, ha2⟩ :=
      checkStr_elim (hok s (List.mem_cons_self s rest))
    obtain ⟨l', hl'⟩ := niceAux_ok_of_checkStr F rest
      ((if N ≠ norm then 1 else ilabel) + 1) N
      fun t ht => hok t (List.mem_cons_of_mem s ht)
    exact ⟨_, by
      rw [niceidealsAux_cons F ilabel norm s rest N n idl gen hp, if_pos ⟨ha1, ha2⟩, hl']⟩

/-! ### Claims about the labeler -/

/-- C2: for input whose stored data passes the assertion and whose norm
sequence is sorted ascending (hence grouped), `niceideals` labels the
`j`-th entry `"N.k"` where `N` is its norm and `k` is one more than the
number of earlier entries of the same norm — so `k` restarts at 1 at
every norm change and increments by 1 within a norm group — and all
assigned labels are pairwise distinct. -/
theorem claim_C2 (F : NumField E I H) (ss : List String)
    (hok : ∀ s ∈ ss, checkStr F s = true)
    (hmono : List.Pairwise (· ≤ ·) (normsOf F ss)) :
    ∃ l, niceideals F ss = .ok l ∧ l.length = ss.length ∧
      (l.map (·.label)).Nodup ∧
      ∀ j N, (normsOf F ss).get? j = some N →
        (l.map (·.label)).get? j = some (toString N ++ "." ++
          toString (1 + (((normsOf F ss).take j).count N : Int))) := by
  have hchain : (normsOf F ss).Chain' (· ≤ ·) := List.chain'_iff_pairwise.mpr hmono
  obtain ⟨l, h1, h2, h3⟩ := niceideals_labels F ss hok hchain
  exact ⟨l, h1, h2, niceideals_labels_nodup F ss hok hchain h1, h3⟩

/-- C2 witness: the spec's four example strings get labels 1.1, 2.1, 2.2,
3.1 with unique labels. -/
theorem claim_C2_witness :
    ∃ l, niceideals exampleField exampleData.ideals = .ok l ∧
      l.length = exampleData.ideals.length ∧
      (l.map (·.label)).Nodup ∧
      ∀ j N, (normsOf exampleField exampleData.ideals).get? j = some N →
        (l.map (·.label)).get? j = some (toString N ++ "." ++
          toString (1 + (((normsOf exampleField exampleData.ideals).take j).count N : Int))) :=
  claim_C2 exampleField exampleData.ideals (by decide) (by decide)

/-- C10: whenever `niceideals` succeeds, `_iter_ideals` with no limit over
the same stored strings also terminates cleanly and yields exactly the
labels `niceideals` assigned, in order: the two copies of the labeling
loop implement the same labeling function. -/
theorem claim_C10 (d : HilbertFieldData E I H) (l : List (IdealEntry I H))
    (h : niceideals d.F d.ideals = .ok l) :
    (iter_ideals d false none).1.map Prod.fst = l.map (·.label) ∧
    (iter_ideals d false none).2 = none := by
  have hiter : iter_ideals d false none
      = (l.map fun e => (e.label, e.idl), none) :=
    iter_of_nice d.F d.ideals 0 1 0 l h
  rw [hiter]
  constructor
  · rw [List.map_map]
    rfl
  · rfl

/-- C10 witness: on the example strings both loops give 1.1, 2.1, 2.2, 3.1. -/
theorem claim_C10_witness :
    (iter_ideals exampleData false none).1.map Prod.fst = exNice.map (·.label) ∧
    (iter_ideals exampleData false none).2 = none :=
  claim_C10 exampleData exNice rfl

/-- C8: if every stored string parses, then decoding raises if and only if
some string's stored norm or least positive integer disagrees with the
constructed ideal's actual norm or smallest integer; when all agree, both
`niceideals` and `_iter_ideals` complete without failure. -/
theorem claim_C8 (d : HilbertFieldData E I H)
    (hparse : ∀ s ∈ d.ideals, (str2ideal d.F s).isSome = true) :
    ((niceideals d.F d.ideals).isOk = true ↔
      ∀ s ∈ d.ideals, ∀ N n idl gen, str2ideal d.F s = some (N, n, idl, gen) →
        d.F.norm idl = N ∧ d.F.smallestInteger idl = n) ∧
    ((iter_ideals d false none).2 = none ↔
      ∀ s ∈ d.ideals, ∀ N n idl gen, str2ideal d.F s = some (N, n, idl, gen) →
        d.F.norm idl = N ∧ d.F.smallestInteger idl = n) := by
  have hcheck : (∀ s ∈ d.ideals, checkStr d.F s = true) ↔
      (∀ s ∈ d.ideals, ∀ N n idl gen, str2ideal d.F s = some (N, n, idl, gen) →
        d.F.norm idl = N ∧ d.F.smallestInteger idl = n) := by
    constructor
    · intro h s hs N n idl gen hp
      obtain ⟨N', n', idl', gen', hp', h1, h2⟩ := checkStr_elim (h s hs)
      rw [hp] at hp'
      simp only [Option.some_inj, Prod.mk.injEq] at hp'
      obtain ⟨rfl, rfl, rfl, rfl⟩ := hp'
      exact ⟨h1, h2⟩
    · intro h s hs
      have hps := hparse s hs
      rcases hp2 : str2ideal d.F s with - | ⟨N, n, idl, gen⟩
      · rw [hp2] at hps
        simp at hps
      · rw [checkStr, hp2]
        obtain ⟨h1, h2⟩ := h s hs N n idl gen hp2
        simp [h1, h2]
  constructor
  · constructor
    · intro hok2
      rcases he : niceideals d.F d.ideals with e | l
      · rw [he] at hok2
        simp [Except.isOk, Except.toBool] at hok2
      · exact hcheck.mp (niceAux_ok_checkStr d.F d.ideals 1 0 l he)
    · intro hagree
      obtain ⟨l, hl⟩ := niceAux_ok_of_checkStr d.F d.ideals 1 0 (hcheck.mpr hagree)
      have he : niceideals d.F d.ideals = .ok l := hl
      rw [he]
      rfl
  · constructor
    · intro hnone
      have hnone2 : (iterIdealsAux d.F none 0 1 0 d.ideals).2 = none := hnone
      obtain ⟨l, hl⟩ := nice_of_iter d.F d.ideals 0 1 0 hnone2
      exact hcheck.mp (niceAux_ok_checkStr d.F d.ideals 1 0 l hl)
    · intro hagree
      obtain ⟨l, hl⟩ := niceAux_ok_of_checkStr d.F d.ideals 1 0 (hcheck.mpr hagree)
      have he : iter_ideals d false none = (l.map fun e => (e.label, e.idl), none) :=
        iter_of_nice d.F d.ideals 0 1 0 l hl
      rw [he]

/-- With a limit `m` still ahead (`count < m`) and enough valid strings
left to reach it, the limited iterator yields exactly the first
`m - count` pairs of the unlimited one and stops cleanly. -/
theorem iterAux_take (F : NumField E I H) :
    ∀ (ss : List String) (count : Nat) (ilabel norm : Int) (m : Nat),
      (∀ s ∈ ss, checkStr F s = true) → count < m → m - count ≤ ss.length →
      iterIdealsAux F (some m) count ilabel norm ss
        = ((iterIdealsAux F none count ilabel norm ss).1.take (m - count), none)
  | [], count, _, _, m, _, hlt, hle => by
    simp only [List.length_nil, Nat.le_zero] at hle
    exact absurd hle (by omega)
  | s :: rest, count, ilabel, norm, m, hok, hlt, hle => by
    obtain ⟨N, n, idl, gen, hp, ha1, ha2⟩ :=
      checkStr_elim (hok s (List.mem_cons_self s rest))
    rw [iterIdealsAux_cons F (some m) count ilabel norm s rest N n idl gen hp,
      iterIdealsAux_cons F none count ilabel norm s rest N n idl gen hp]
    have hnone : ¬((none : Option Nat) = some (count + 1)) := by simp
    simp only [if_pos (⟨ha1, ha2⟩ : F.norm idl = N ∧ F.smallestInteger idl = n),
      if_neg hnone]
    by_cases hm : m = count + 1
    · have hcond : some m = some (count + 1) := by rw [hm]
      rw [if_pos hcond]
      have h1 : m - count = 1 := by omega
      rw [h1]
      simp
    · have hcond : ¬(some m = some (count + 1)) := by
        simp only [Option.some_inj]
        exact hm
      rw [if_neg hcond,
        iterAux_take F rest (count + 1) ((if N ≠ norm then 1 else ilabel) + 1) N m
          (fun t ht => hok t (List.mem_cons_of_mem s ht)) (by omega)
          (by simp only [List.length_cons] at hle; omega),
        show m - count = (m - (count + 1)) + 1 by omega,
        List.take_succ_cons]

/-- C6: for every positive limit `m` not exceeding the number of stored
serialized ideals, all of which decode and pass the assertion,
`_iter_ideals(number=m)` yields exactly the first `m` `(label, ideal)`
pairs of the unlimited iteration and then terminates as a normally
exhausted iteration (no escaping exception). -/
theorem claim_C6 (d : HilbertFieldData E I H) (m : Nat)
    (hok : ∀ s ∈ d.ideals, checkStr d.F s = true)
    (hm1 : 0 < m) (hm2 : m ≤ d.ideals.length) :
    iter_ideals d false (some m) = ((iter_ideals d false none).1.take m, none) := by
  have h := iterAux_take d.F d.ideals 0 1 0 m hok hm1 (by omega)
  exact h

/-- C6 witness: the spec's scenario, `iterate_ideals(limit=2)` on the four
example strings yields exactly the first two pairs, labels 1.1 and 2.1. -/
theorem claim_C6_witness :
    (iter_ideals exampleData false (some 2)
        = ((iter_ideals exampleData false none).1.take 2, none)) ∧
    (iter_ideals exampleData false (some 2)).1.map Prod.fst = ["1.1", "2.1"] :=
  ⟨claim_C6 exampleData 2 (by decide) (by decide) (by decide), by decide⟩

/-! ### The index dictionaries -/

theorem dictLookup_eq_none {κ ν : Type} [DecidableEq κ] {d : List (κ × ν)} {k : κ}
    (h : ∀ p ∈ d, p.1 ≠ k) : dictLookup d k = none := by
  rw [dictLookup, List.find?_eq_none.mpr ?_]
  · rfl
  · intro p hp
    simp [h p hp]

theorem dictLookup_mem {κ ν : Type} [DecidableEq κ] {d : List (κ × ν)} {k : κ}
    (hex : ∃ v, (k, v) ∈ d) :
    ∃ v, dictLookup d k = some v ∧ (k, v) ∈ d := by
  obtain ⟨v, hv⟩ := hex
  have hsome : (d.find? fun p => decide (p.1 = k)).isSome := by
    rw [List.find?_isSome]
    exact ⟨(k, v), hv, by simp⟩
  obtain ⟨w, hw⟩ := Option.isSome_iff_exists.mp hsome
  have hk : w.1 = k := by
    have := List.find?_some hw
    simpa using this
  have hmemw := List.mem_of_find?_eq_some hw
  refine ⟨w.2, ?_, ?_⟩
  · rw [dictLookup, hw]
    rfl
  · have hwe : (k, w.2) = w := by
      rw [← hk]
    exact hwe ▸ hmemw

theorem foldl_index (items : List (String × I)) :
    ∀ (a : List (String × I)) (b : List (I × String)),
      items.foldl
        (fun idx it =>
          { ideal_dict := dictInsert idx.ideal_dict it.1 it.2
            label_dict := dictInsert idx.label_dict it.2 it.1 })
        (⟨a, b⟩ : HMFIndex I)
      = ⟨items.reverse ++ a, (items.map fun it => (it.2, it.1)).reverse ++ b⟩ := by
  induction items with
  | nil => intro a b; simp
  | cons it items ih =>
    intro a b
    rw [List.foldl_cons]
    refine (ih ((it.1, it.2) :: a) ((it.2, it.1) :: b)).trans ?_
    simp [List.reverse_cons, List.append_assoc]

theorem mkIndex_ok (d : HilbertFieldData E I H) {idx : HMFIndex I}
    (h : mkIndex d = .ok idx) :
    (ideals_iter d none).2 = none ∧
    idx.ideal_dict = (ideals_iter d none).1.reverse ∧
    idx.label_dict = ((ideals_iter d none).1.map fun it => (it.2, it.1)).reverse := by
  rcases hit : ideals_iter d none with ⟨items, err⟩
  have h2 : (match (items, err) with
      | (_, some e) => (Except.error e : Except DecodeErr (HMFIndex I))
      | (items, none) =>
        .ok (items.foldl
          (fun (idx : HMFIndex I) (it : String × I) =>
            { ideal_dict := dictInsert idx.ideal_dict it.1 it.2
              label_dict := dictInsert idx.label_dict it.2 it.1 })
          ⟨[], []⟩)) = .ok idx := by
    rw [← hit]
    exact h
  cases err with
  | some e => simp at h2
  | none =>
    simp only [Except.ok.injEq] at h2
    rw [← h2, foldl_index items [] []]
    simp

/-! ### Claims about the index -/

/-- C3: for an index built from a stored list sorted by ascending norm
(the documented construction precondition), the label-to-ideal lookup
inverts the ideal-to-label lookup on every ideal present in the
general-ideal table built at construction. -/
theorem claim_C3 (d : HilbertFieldData E I H) [DecidableEq I]
    (hmono : List.Pairwise (· ≤ ·) (normsOf d.F d.ideals))
    (idx : HMFIndex I) (hidx : mkIndex d = .ok idx)
    (idl : I) (hmem : ∃ lab, (lab, idl) ∈ (ideals_iter d none).1) :
    (ideal_label idx idl).bind (fun lab => ideal idx lab) = some idl := by
  obtain ⟨herr, hid, hlb⟩ := mkIndex_ok d hidx
  have herr2 : (iterIdealsAux d.F none 0 1 0 d.ideals).2 = none := herr
  obtain ⟨l, hl⟩ := nice_of_iter d.F d.ideals 0 1 0 herr2
  have hok := niceAux_ok_checkStr d.F d.ideals 1 0 l hl
  have hnodup := niceideals_labels_nodup d.F d.ideals hok
    (List.chain'_iff_pairwise.mpr hmono) hl
  have hitems : (ideals_iter d none).1 = l.map fun e => (e.label, e.idl) := by
    have he : iterIdealsAux d.F none 0 1 0 d.ideals
        = (l.map fun e => (e.label, e.idl), none) :=
      iter_of_nice d.F d.ideals 0 1 0 l hl
    show (iterIdealsAux d.F none 0 1 0 d.ideals).1 = _
    rw [he]
  have hfst_nodup : ((ideals_iter d none).1.map Prod.fst).Nodup := by
    rw [hitems, List.map_map]
    exact hnodup
  obtain ⟨lab0, hlab0⟩ := hmem
  have hswap : (idl, lab0) ∈ (ideals_iter d none).1.map fun it => (it.2, it.1) :=
    List.mem_map_of_mem _ hlab0
  obtain ⟨lab, hlook, hmem2⟩ :=
    dictLookup_mem (d := ((ideals_iter d none).1.map fun it => (it.2, it.1)).reverse)
      ⟨lab0, List.mem_reverse.mpr hswap⟩
  have hmem3 : (lab, idl) ∈ (ideals_iter d none).1 := by
    obtain ⟨it, hit, he⟩ := List.mem_map.mp (List.mem_reverse.mp hmem2)
    have he1 : it.2 = idl := congrArg Prod.fst he
    have he2 : it.1 = lab := congrArg Prod.snd he
    have : it = (lab, idl) := by
      rw [← he1, ← he2]
    exact this ▸ hit
  obtain ⟨idl2, hlook2, hmem4⟩ :=
    dictLookup_mem (d := (ideals_iter d none).1.reverse)
      ⟨idl, List.mem_reverse.mpr hmem3⟩
  have hmem5 : (lab, idl2) ∈ (ideals_iter d none).1 := List.mem_reverse.mp hmem4
  have heq : (lab, idl) = (lab, idl2) :=
    List.inj_on_of_nodup_map hfst_nodup hmem3 hmem5 rfl
  have hididl : idl2 = idl := (congrArg Prod.snd heq).symm
  rw [ideal_label, dictLookup, hlb]
  rw [dictLookup] at hlook
  rw [hlook]
  rw [Option.some_bind]
  rw [ideal, dictLookup, hid]
  rw [dictLookup] at hlook2
  rw [hlook2, hididl]

/-- C4: the prime accessors resolve through the same general-ideal
dictionaries as the general accessors: `prime_label` is an alias of
`ideal_label` and `prime` of `ideal`, for every input. -/
theorem claim_C4 [DecidableEq I] (idx : HMFIndex I) (x : I) (lab : String) :
    prime_label idx x = ideal_label idx x ∧ prime idx lab = ideal idx lab :=
  ⟨rfl, rfl⟩

/-- C9: for an ideal that is not a key of the label dictionary and a label
that is not a key of the ideal dictionary, all four accessors return
`None` (the lookups are total functions into `Option`; no exception
escapes: the `KeyError` is caught). -/
theorem claim_C9 [DecidableEq I] (idx : HMFIndex I) (idl : I) (lab : String)
    (hidl : ∀ p ∈ idx.label_dict, p.1 ≠ idl)
    (hlab : ∀ p ∈ idx.ideal_dict, p.1 ≠ lab) :
    ideal_label idx idl = none ∧ ideal idx lab = none ∧
      prime_label idx idl = none ∧ prime idx lab = none := by
  have h1 : ideal_label idx idl = none := dictLookup_eq_none hidl
  have h2 : ideal idx lab = none := dictLookup_eq_none hlab
  exact ⟨h1, h2, h1, h2⟩

/-- C3 witness: on the example index, the ideal stored as 2.2 round-trips. -/
theorem claim_C3_witness :
    (ideal_label exIdx ((2, 1) : Int × Int)).bind (fun lab => ideal exIdx lab)
      = some (2, 1) :=
  claim_C3 exampleData (by decide) exIdx rfl (2, 1) ⟨"2.2", by decide⟩

/-- C9 witness: an ideal and a label absent from the example index. -/
theorem claim_C9_witness :
    ideal_label exIdx ((9, 9) : Int × Int) = none ∧ ideal exIdx "7.1" = none ∧
      prime_label exIdx ((9, 9) : Int × Int) = none ∧ prime exIdx "7.1" = none :=
  claim_C9 exIdx (9, 9) "7.1" (by decide) (by decide)

/-- C8 witness: on the example data every string parses and agrees, and
both loops complete. -/
theorem claim_C8_witness :
    ((niceideals exampleField exampleData.ideals).isOk = true ↔
      ∀ s ∈ exampleData.ideals, ∀ N n idl gen,
        str2ideal exampleField s = some (N, n, idl, gen) →
          exampleField.norm idl = N ∧ exampleField.smallestInteger idl = n) ∧
    ((iter_ideals exampleData false none).2 = none ↔
      ∀ s ∈ exampleData.ideals, ∀ N n idl gen,
        str2ideal exampleField s = some (N, n, idl, gen) →
          exampleField.norm idl = N ∧ exampleField.smallestInteger idl = n) :=
  claim_C8 exampleData (by decide)

end HilbertField
